import Mathlib

/-!
Verification development for the record-oriented pattern-action interpreter
in `pkg/awk/awk.go`.  The Go source is shallowly embedded: strings are
`List Char`, Go `float64` values are modelled as exact rationals (`Rat`) —
all arithmetic exercised here (small-integer sums, the guarded division)
is exact, so no rounding behaviour is lost — and the per-`Action` mutable
`Variables` map is threaded explicitly as an association list.
-/

namespace Awk

set_option allowUnsafeReducibility true
attribute [local semireducible] Rat.add Rat.mul Rat.inv Rat.sub Rat.neg Rat.div

/-- Decidable equality of results, for ground evaluation of parse and
run outcomes. -/
instance {ε α : Type} [DecidableEq ε] [DecidableEq α] :
    DecidableEq (Except ε α) := fun a b =>
  match a, b with
  | .error x, .error y =>
    if h : x = y then isTrue (congrArg _ h) else isFalse (by simp [h])
  | .error _, .ok _ => isFalse (by simp)
  | .ok _, .error _ => isFalse (by simp)
  | .ok x, .ok y =>
    if h : x = y then isTrue (congrArg _ h) else isFalse (by simp [h])

/-- Whitespace set of Go `unicode.IsSpace` restricted to the Latin-1 range
(space, tab, newline, vertical tab, form feed, carriage return, NEL, NBSP). -/
def isGoSpace (c : Char) : Bool :=
  c == ' ' || c == '\t' || c == '\n' || c == '\x0b' || c == '\x0c' ||
  c == '\r' || c == '\u0085' || c == '\u00A0'

/-- Go `strings.TrimSpace`: drop leading and trailing whitespace. -/
def goTrim (l : List Char) : List Char :=
  ((l.dropWhile isGoSpace).reverse.dropWhile isGoSpace).reverse

/-- Go `strings.Index`: position of the first occurrence of `pat` in `l`
(`none` models the Go result `-1`). -/
def goIndex : List Char → List Char → Option Nat
  | l, pat =>
    if pat.isPrefixOf l then some 0
    else
      match l with
      | [] => none
      | _ :: t => (goIndex t pat).map (· + 1)

/-- Go `strings.Contains`. -/
def goContains (l pat : List Char) : Bool :=
  (goIndex l pat).isSome

/-- Go `strings.TrimPrefix`. -/
def goTrimPrefixOf (l pre : List Char) : List Char :=
  if pre.isPrefixOf l then l.drop pre.length else l

/-- Go `strings.SplitN(l, sep, 2)`: split at the first occurrence of `sep`. -/
def goSplitN2 (l sep : List Char) : List (List Char) :=
  match goIndex l sep with
  | none => [l]
  | some i => [l.take i, l.drop (i + sep.length)]

/-- Fuelled worker for `goSplit`. -/
def goSplitAux : Nat → List Char → List Char → List (List Char)
  | 0, l, _ => [l]
  | fuel + 1, l, sep =>
    match goIndex l sep with
    | none => [l]
    | some i => l.take i :: goSplitAux fuel (l.drop (i + sep.length)) sep

/-- Go `strings.Split`: literal split preserving empty tokens; an empty
separator explodes the string into single characters. -/
def goSplit (l sep : List Char) : List (List Char) :=
  if sep = [] then l.map (fun c => [c])
  else goSplitAux (l.length + 1) l sep

/-- One `foldr` step of `goFields`: accumulate the current token and the
tokens already closed to the right. -/
def goFieldsStep (c : Char) (acc : List Char × List (List Char)) :
    List Char × List (List Char) :=
  if isGoSpace c then ([], if acc.1 = [] then acc.2 else acc.1 :: acc.2)
  else (c :: acc.1, acc.2)

/-- Go `strings.Fields`: split on runs of whitespace, discarding empty
tokens. -/
def goFields (l : List Char) : List (List Char) :=
  let r := l.foldr goFieldsStep ([], [])
  if r.1 = [] then r.2 else r.1 :: r.2

/-- Numeric value of a run of decimal digits (callers guarantee digits). -/
def natOfDigits (l : List Char) : Nat :=
  l.foldl (fun a c => a * 10 + (c.toNat - 48)) 0

/-- Digits of `l` as a number, `none` when `l` is empty or holds a
non-digit — the all-digit acceptance test of Go `strconv.Atoi`. -/
def digitsToNat (l : List Char) : Option Nat :=
  if l = [] then none
  else if l.all Char.isDigit then some (natOfDigits l) else none

/-- Go `strconv.Atoi`: optional sign followed by at least one digit. -/
def goAtoi : List Char → Option Int
  | '+' :: t => (digitsToNat t).map Int.ofNat
  | '-' :: t => (digitsToNat t).map (fun n => -(n : Int))
  | t => (digitsToNat t).map Int.ofNat

/-- Go `strconv.ParseFloat` restricted to plain decimal syntax
(optional sign, digits with optional fraction, optional decimal exponent);
hexadecimal floats, `Inf` and `NaN` spellings are outside the model.  The
value is kept exact as a rational. -/
def goParseFloat (l : List Char) : Option Rat :=
  let signed : Bool × List Char :=
    match l with
    | '+' :: t => (false, t)
    | '-' :: t => (true, t)
    | t => (false, t)
  let l₁ := signed.2
  let ip := l₁.takeWhile Char.isDigit
  let l₂ := l₁.dropWhile Char.isDigit
  let fpRest : List Char × List Char :=
    match l₂ with
    | '.' :: t => (t.takeWhile Char.isDigit, t.dropWhile Char.isDigit)
    | t => ([], t)
  let fp := fpRest.1
  let l₃ := fpRest.2
  if ip = [] ∧ fp = [] then none
  else
    let base : Rat := (natOfDigits (ip ++ fp) : Rat) / ((10 ^ fp.length : Nat) : Rat)
    let finish : Rat → Option Rat := fun v =>
      some (if signed.1 then -v else v)
    match l₃ with
    | [] => finish base
    | e :: t =>
      if e = 'e' ∨ e = 'E' then
        let esigned : Bool × List Char :=
          match t with
          | '+' :: t' => (false, t')
          | '-' :: t' => (true, t')
          | t' => (false, t')
        let ed := esigned.2.takeWhile Char.isDigit
        let rest := esigned.2.dropWhile Char.isDigit
        if ed = [] ∨ rest ≠ [] then none
        else
          let ex := natOfDigits ed
          finish (if esigned.1 then base / ((10 ^ ex : Nat) : Rat)
                  else base * ((10 ^ ex : Nat) : Rat))
      else none

/-- Fractional digits of `q ∈ [0,1)` in decimal, with fuel; Go never needs
more than about 1100 digits for a `float64`, so the fuel used by
`formatValue` is never exhausted on values representable there. -/
def fracDigits : Nat → Rat → List Char
  | 0, _ => []
  | fuel + 1, q =>
    if q = 0 then []
    else
      let q10 := q * 10
      let d := q10.floor
      Char.ofNat (48 + d.toNat) :: fracDigits fuel (q10 - (d : Rat))

/-- Go `fmt.Sprintf("%v", x)` for a `float64`, modelled on exact rationals
in plain decimal notation (the exponent notation Go switches to outside
`[1e-4, 1e21)` is not exercised by any program considered here). -/
def formatValue (q : Rat) : List Char :=
  let a := if q < 0 then -q else q
  let ipart := (toString a.floor.toNat).toList
  let fpart := a - (a.floor : Rat)
  (if q < 0 then ['-'] else []) ++ ipart ++
    (if fpart = 0 then [] else '.' :: fracDigits 1200 fpart)

/-- `splitFields` from the source: a single-space separator selects
whitespace-run splitting (`strings.Fields`), anything else the literal
split (`strings.Split`). -/
def splitFields (line sep : List Char) : List (List Char) :=
  if sep = [' '] then goFields line else goSplit line sep

/-! ### Regular expressions

Go `regexp.Compile` / `Regexp.MatchString` are modelled by a small
derivative-based engine over the classical regex constructors, together
with a recursive-descent compiler for the syntax the repository's
patterns use: literal characters, `.`, character classes, grouping,
alternation and the postfix operators `*`, `+`, `?`.  Counted
repetitions and anchors are outside the modelled subset.  `MatchString`
is unanchored: it succeeds when any substring of the line matches. -/

inductive Regex where
  | emp : Regex
  | eps : Regex
  | cls (ranges : List (Char × Char)) (neg : Bool) : Regex
  | cat (r₁ r₂ : Regex) : Regex
  | alt (r₁ r₂ : Regex) : Regex
  | star (r : Regex) : Regex
deriving DecidableEq, Repr

/-- Single-character literal as a degenerate class. -/
def Regex.lit (c : Char) : Regex := .cls [(c, c)] false

/-- `.` in Go: any character except newline. -/
def Regex.dot : Regex := .cls [('\n', '\n')] true

/-- Character membership in a class. -/
def clsMatches (ranges : List (Char × Char)) (neg : Bool) (c : Char) : Bool :=
  let inR := ranges.any (fun p => p.1 ≤ c ∧ c ≤ p.2)
  if neg then !inR else inR

/-- Does the regex accept the empty string? -/
def Regex.nullable : Regex → Bool
  | .emp => false
  | .eps => true
  | .cls _ _ => false
  | .cat r₁ r₂ => r₁.nullable && r₂.nullable
  | .alt r₁ r₂ => r₁.nullable || r₂.nullable
  | .star _ => true

/-- Brzozowski derivative with respect to one character. -/
def Regex.deriv : Regex → Char → Regex
  | .emp, _ => .emp
  | .eps, _ => .emp
  | .cls ranges neg, c => if clsMatches ranges neg c then .eps else .emp
  | .cat r₁ r₂, c =>
    if r₁.nullable then .alt (.cat (r₁.deriv c) r₂) (r₂.deriv c)
    else .cat (r₁.deriv c) r₂
  | .alt r₁ r₂, c => .alt (r₁.deriv c) (r₂.deriv c)
  | .star r, c => .cat (r.deriv c) (.star r)

/-- Does some prefix of `l` match `r` in full? -/
def matchesSomePre (r : Regex) : List Char → Bool
  | [] => r.nullable
  | c :: cs => r.nullable || matchesSomePre (r.deriv c) cs

/-- Go `Regexp.MatchString`: some substring of `l` matches `r`. -/
def matchString (r : Regex) (l : List Char) : Bool :=
  matchesSomePre r l ||
    match l with
    | [] => false
    | _ :: cs => matchString r cs

/-- Class items after `[` (and the optional `^`): ranges and single
characters up to the closing `]`; running out of input is a syntax
error, as in Go. -/
def classItems : List Char → List (Char × Char) →
    Option (List (Char × Char) × List Char)
  | [], _ => none
  | ']' :: rest, acc => some (acc.reverse, rest)
  | '\\' :: c :: rest, acc => classItems rest ((c, c) :: acc)
  | c :: '-' :: d :: rest, acc =>
    if d = ']' then some ((('-', '-') :: (c, c) :: acc).reverse, rest)
    else classItems rest ((c, d) :: acc)
  | c :: rest, acc => classItems rest ((c, c) :: acc)

/-- Escaped atom: the common shorthand classes, otherwise the literal
character. -/
def escAtom (c : Char) : Regex :=
  if c = 'd' then .cls [('0', '9')] false
  else if c = 'D' then .cls [('0', '9')] true
  else if c = 's' then .cls [(' ', ' '), ('\t', '\t'), ('\n', '\n'),
    ('\x0b', '\x0b'), ('\x0c', '\x0c'), ('\r', '\r')] false
  else if c = 'S' then .cls [(' ', ' '), ('\t', '\t'), ('\n', '\n'),
    ('\x0b', '\x0b'), ('\x0c', '\x0c'), ('\r', '\r')] true
  else if c = 'w' then .cls [('0', '9'), ('A', 'Z'), ('_', '_'), ('a', 'z')] false
  else if c = 'W' then .cls [('0', '9'), ('A', 'Z'), ('_', '_'), ('a', 'z')] true
  else .lit c

/-- Apply an optional postfix repetition operator to an atom. -/
def applyRep (r : Regex) : List Char → Regex × List Char
  | '*' :: rest => (.star r, rest)
  | '+' :: rest => (.cat r (.star r), rest)
  | '?' :: rest => (.alt r .eps, rest)
  | rest => (r, rest)

mutual

/-- One atom of the regex grammar. -/
def parseAtomF : Nat → List Char → Option (Regex × List Char)
  | 0, _ => none
  | fuel + 1, l =>
    match l with
    | [] => none
    | '(' :: rest =>
      match parseAltF fuel rest with
      | none => none
      | some (r, rest₁) =>
        match rest₁ with
        | ')' :: rest₂ => some (r, rest₂)
        | _ => none
    | '[' :: rest =>
      let negRest : Bool × List Char :=
        match rest with
        | '^' :: t => (true, t)
        | t => (false, t)
      let body :=
        match negRest.2 with
        | ']' :: t => classItems t [(']', ']')]
        | t => classItems t []
      match body with
      | none => none
      | some (items, rest₁) => some (.cls items negRest.1, rest₁)
    | '.' :: rest => some (.dot, rest)
    | '\\' :: c :: rest => some (escAtom c, rest)
    | '\\' :: [] => none
    | c :: rest =>
      if c = '*' ∨ c = '+' ∨ c = '?' ∨ c = '|' ∨ c = ')' ∨ c = '^' ∨ c = '$'
      then none
      else some (.lit c, rest)

/-- A concatenation: atoms with postfix operators up to `)`/`|`/end. -/
def parseCatF : Nat → List Char → Option (Regex × List Char)
  | 0, _ => none
  | fuel + 1, l =>
    match l with
    | [] => some (.eps, [])
    | ')' :: _ => some (.eps, l)
    | '|' :: _ => some (.eps, l)
    | _ =>
      match parseAtomF fuel l with
      | none => none
      | some (a, rest) =>
        let ar := applyRep a rest
        match parseCatF fuel ar.2 with
        | none => none
        | some (r, rest₂) => some (.cat ar.1 r, rest₂)

/-- An alternation: concatenations separated by `|`. -/
def parseAltF : Nat → List Char → Option (Regex × List Char)
  | 0, _ => none
  | fuel + 1, l =>
    match parseCatF fuel l with
    | none => none
    | some (r, rest) =>
      match rest with
      | '|' :: t =>
        match parseAltF fuel t with
        | none => none
        | some (r₂, rest₂) => some (.alt r r₂, rest₂)
      | _ => some (r, rest)

end

/-- Go `regexp.Compile` over the modelled subset: `none` is a compile
error.  Leftover input (an unmatched `)`) is an error too. -/
def compileRegex (l : List Char) : Option Regex :=
  match parseAltF (3 * l.length + 9) l with
  | none => none
  | some (r, []) => some r
  | some (_, _ :: _) => none

/-! ### Data model

Direct transliteration of the structs and interfaces of `awk.go`.  The
interface types `Pattern`, `Statement`, `Expression` become closed
inductives (the source has exactly these implementations).  The mutable
per-`Action` Go map `Variables` becomes an association list carried in
the `Action` value and threaded through execution. -/

/-- Variable store of one `Action` (Go `map[string]float64`; a missing
key reads as `0`). -/
abbrev VarMap := List (List Char × Rat)

/-- Go map read `vars[name]` (zero value for a missing key). -/
def lookupVar (vars : VarMap) (name : List Char) : Rat :=
  ((vars.find? (fun p => p.1 == name)).map Prod.snd).getD 0

/-- Go map write `vars[name] = v`. -/
def setVar (vars : VarMap) (name : List Char) (v : Rat) : VarMap :=
  (name, v) :: vars.filter (fun p => !(p.1 == name))

/-- Execution context (`Context` in the source). -/
structure Context where
  NR : Int
  NF : Int
  Fields : List (List Char)
  Line : List Char
  FS : List Char
deriving DecidableEq, Repr

/-- `Pattern` interface: `AlwaysPattern`, `RegexPattern`, `LinePattern`. -/
inductive Pattern where
  | always : Pattern
  | regex (r : Regex) : Pattern
  | lineNum (n : Int) : Pattern
deriving DecidableEq, Repr

/-- Dispatch of `Pattern.Match`. -/
def Pattern.MatchCtx : Pattern → Context → Bool
  | .always, _ => true
  | .regex r, ctx => matchString r ctx.Line
  | .lineNum n, ctx => ctx.NR == n

/-- `FieldRef`: either a field index or a variable name (a non-empty
`Var` wins, as in `FieldRef.GetValue`). -/
structure FieldRef where
  Field : Int
  Var : List Char
deriving DecidableEq, Repr

/-- `Expression` interface: `FieldExpression`, `VariableExpression`,
`BinaryExpression` (whose operator is kept as its source string). -/
inductive Expression where
  | field (n : Int) : Expression
  | var (name : List Char) : Expression
  | binary (op : List Char) (l r : Expression) : Expression
deriving DecidableEq, Repr

/-- `Statement` interface: `PrintStatement`, `AssignStatement`. -/
inductive Statement where
  | print (fields : List FieldRef) : Statement
  | assign (varName : List Char) (expr : Expression) : Statement
deriving DecidableEq, Repr

/-- `Action`: statement list plus its own variable store. -/
structure Action where
  Statements : List Statement
  Variables : VarMap
deriving DecidableEq, Repr

/-- `Rule`: pattern plus action. -/
structure Rule where
  Pattern : Pattern
  Action : Action
deriving DecidableEq, Repr

/-- `Program`: optional BEGIN, rule list, optional END. -/
structure Program where
  Begin : Option Action
  Rules : List Rule
  End : Option Action
deriving DecidableEq, Repr

/-- Parse-time errors of the source, one constructor per `fmt.Errorf`
site (payload = the offending fragment where the message embeds one). -/
inductive ParseError where
  | missingBeginBrace : ParseError
  | actionBraces : ParseError
  | missingSlash : ParseError
  | invalidRegex (s : List Char) : ParseError
  | invalidLineNumber (s : List Char) : ParseError
  | unsupportedStatement (s : List Char) : ParseError
  | invalidField (s : List Char) : ParseError
deriving DecidableEq, Repr

/-! ### Evaluation -/

/-- `FieldExpression` / `VariableExpression` / `BinaryExpression`
`Evaluate`, folded into one recursive function over the closed variant.
The division case carries the source's explicit `right != 0` guard. -/
def evalExpr (ctx : Context) (vars : VarMap) : Expression → Rat
  | .field n =>
    if n = 0 then 0
    else if 0 < n ∧ n ≤ (ctx.Fields.length : Int) then
      (goParseFloat ((ctx.Fields[(n - 1).toNat]?).getD [])).getD 0
    else 0
  | .var name => lookupVar vars name
  | .binary op l r =>
    let lv := evalExpr ctx vars l
    let rv := evalExpr ctx vars r
    if op = ['+'] then lv + rv
    else if op = ['-'] then lv - rv
    else if op = ['*'] then lv * rv
    else if op = ['/'] then (if rv ≠ 0 then lv / rv else 0)
    else 0

/-- `FieldRef.GetValue`. -/
def getValue (ctx : Context) (vars : VarMap) (f : FieldRef) : List Char :=
  if f.Var ≠ [] then formatValue (lookupVar vars f.Var)
  else if f.Field = 0 then ctx.Line
  else if 0 < f.Field ∧ f.Field ≤ (ctx.Fields.length : Int) then
    (ctx.Fields[(f.Field - 1).toNat]?).getD []
  else []

/-- One statement: `PrintStatement.Execute` emits a line,
`AssignStatement.Execute` updates the store. -/
def execStatement (ctx : Context) (vars : VarMap) :
    Statement → VarMap × List (List Char)
  | .print fs =>
    if fs = [] then (vars, [ctx.Line])
    else (vars, [List.intercalate [' '] (fs.map (getValue ctx vars))])
  | .assign v e => (setVar vars v (evalExpr ctx vars e), [])

/-- Fold step of `Action.Execute` over the statement list. -/
def execStep (ctx : Context) (acc : VarMap × List (List Char))
    (st : Statement) : VarMap × List (List Char) :=
  let r := execStatement ctx acc.1 st
  (r.1, acc.2 ++ r.2)

/-- `Action.Execute`: runs the statements against the action's own store
and returns the action with its updated store plus the emitted lines. -/
def execAction (a : Action) (ctx : Context) : Action × List (List Char) :=
  let r := a.Statements.foldl (execStep ctx) (a.Variables, [])
  (⟨a.Statements, r.1⟩, r.2)

/-- The per-line rule loop of `processInput`. -/
def runRules (ctx : Context) : List Rule → List Rule × List (List Char)
  | [] => ([], [])
  | r :: rs =>
    let fst :=
      if r.Pattern.MatchCtx ctx then
        let e := execAction r.Action ctx
        ((⟨r.Pattern, e.1⟩ : Rule), e.2)
      else (r, [])
    let rest := runRules ctx rs
    (fst.1 :: rest.1, fst.2 ++ rest.2)

/-- The scanner loop of `processInput`: per input line, bump `NR`, set
the line, recompute fields, run the rules. -/
def processLines (ctx : Context) (rules : List Rule) :
    List (List Char) → Context × List Rule × List (List Char)
  | [] => (ctx, rules, [])
  | line :: rest =>
    let fields := splitFields line ctx.FS
    let ctx' : Context :=
      { ctx with NR := ctx.NR + 1, Line := line, Fields := fields,
                 NF := (fields.length : Int) }
    let rr := runRules ctx' rules
    let pr := processLines ctx' rr.1 rest
    (pr.1, pr.2.1, rr.2 ++ pr.2.2)

/-- `processInput` after a successful parse: BEGIN once, the line loop,
END once against the final context.  Returns the emitted lines and the
program with its mutated variable stores. -/
def runParsed (fs : List Char) (p : Program) (input : List (List Char)) :
    List (List Char) × Program :=
  let ctx0 : Context := ⟨0, 0, [], [], fs⟩
  let bo : Option Action × List (List Char) :=
    match p.Begin with
    | none => (none, [])
    | some a => let r := execAction a ctx0; (some r.1, r.2)
  let pl := processLines ctx0 p.Rules input
  let eo : Option Action × List (List Char) :=
    match p.End with
    | none => (none, [])
    | some a => let r := execAction a pl.1; (some r.1, r.2)
  (bo.2 ++ pl.2.2 ++ eo.2, ⟨bo.1, pl.2.1, eo.1⟩)

/-! ### Parsing -/

/-- `parseExpression`: a `$`-prefixed integer is a field reference,
anything else a bare variable name. -/
def parseExpression (exprStr : List Char) : Except ParseError Expression :=
  let s := goTrim exprStr
  if ['$'].isPrefixOf s then
    match goAtoi (s.drop 1) with
    | none => .error (.invalidField s)
    | some n => .ok (.field n)
  else .ok (.var s)

/-- Field-reference list of a `print` statement (the loop body of
`parsePrint`). -/
def parseFieldRefs : List (List Char) → Except ParseError (List FieldRef)
  | [] => .ok []
  | f :: rest =>
    let f' := goTrim f
    if ['$'].isPrefixOf f' then
      match goAtoi (f'.drop 1) with
      | none => .error (.invalidField f')
      | some n =>
        (parseFieldRefs rest).map (fun l => ⟨n, []⟩ :: l)
    else (parseFieldRefs rest).map (fun l => ⟨0, f'⟩ :: l)

/-- `parsePrint`: strip the keyword; no arguments or a bare `$0` mean
"print the whole line", otherwise a comma-separated field list. -/
def parsePrint (printStr : List Char) : Except ParseError Statement :=
  let s := goTrim (goTrimPrefixOf printStr "print".toList)
  if s = [] ∨ s = "$0".toList then .ok (.print [])
  else (parseFieldRefs (goSplit s [','])).map Statement.print

/-- `parseStatement`: `print …`, or `var+=expr`, else unsupported. -/
def parseStatement (stmtStr : List Char) : Except ParseError Statement :=
  let s := goTrim stmtStr
  if "print".toList.isPrefixOf s then parsePrint s
  else if goContains s "+=".toList then
    let parts := goSplitN2 s "+=".toList
    let varName := goTrim (parts.headD [])
    let exprStr := goTrim ((parts.drop 1).headD [])
    (parseExpression exprStr).map fun e =>
      .assign varName (.binary ['+'] (.var varName) e)
  else .error (.unsupportedStatement s)

/-- `parseAction`: the text must be wrapped in `{ … }`; the interior is
parsed as zero-or-one statement. -/
def parseAction (actionStr : List Char) : Except ParseError Action :=
  let s := goTrim actionStr
  if !(['\x7b'].isPrefixOf s) || !(['\x7d'].isSuffixOf s) then
    .error .actionBraces
  else
    let inner := goTrim ((s.drop 1).take (s.length - 2))
    if inner = [] then .ok ⟨[], []⟩
    else (parseStatement inner).map fun st => ⟨[st], []⟩

/-- `parseRule`: leading `/…/` is a regex pattern, leading `NR==n` a
line-number pattern, anything else always-match; an absent action body
defaults to `print`. -/
def parseRule (ruleStr₀ : List Char) : Except ParseError Rule :=
  let ruleStr := goTrim ruleStr₀
  let patRest : Except ParseError (Pattern × List Char) :=
    if ['/'].isPrefixOf ruleStr then
      match goIndex (ruleStr.drop 1) ['/'] with
      | none => .error .missingSlash
      | some endIdx =>
        let patternStr := (ruleStr.drop 1).take endIdx
        match compileRegex patternStr with
        | none => .error (.invalidRegex patternStr)
        | some r => .ok (.regex r, goTrim (ruleStr.drop (endIdx + 2)))
    else if "NR==".toList.isPrefixOf ruleStr then
      let parts := goSplitN2 ruleStr [' ']
      let lineStr := goTrimPrefixOf (parts.headD []) "NR==".toList
      match goAtoi lineStr with
      | none => .error (.invalidLineNumber lineStr)
      | some n =>
        .ok (.lineNum n,
          match parts with
          | [_, rest] => goTrim rest
          | _ => [])
    else .ok (.always, ruleStr)
  match patRest with
  | .error e => .error e
  | .ok (pat, actText) =>
    if actText ≠ [] then (parseAction actText).map fun a => ⟨pat, a⟩
    else .ok ⟨pat, ⟨[.print []], []⟩⟩

/-- BEGIN phase of `parseProgram`: if the trimmed text starts with
`BEGIN`, the slice up to the first `}` (searched from the start of the
whole text) is compiled as the BEGIN action. -/
def extractBegin (prog : List Char) :
    Except ParseError (Option Action × List Char) :=
  if "BEGIN".toList.isPrefixOf prog then
    match goIndex prog ['\x7d'] with
    | none => .error .missingBeginBrace
    | some endIdx =>
      (parseAction ((prog.take (endIdx + 1)).drop 5)).map fun a =>
        (some a, goTrim (prog.drop (endIdx + 1)))
  else .ok (none, prog)

/-- END phase of `parseProgram`: the first textual occurrence of `END`
splits the remainder; everything after it is the END action. -/
def extractEnd (prog : List Char) :
    Except ParseError (Option Action × List Char) :=
  match goIndex prog "END".toList with
  | none => .ok (none, prog)
  | some idx =>
    (parseAction (prog.drop (idx + 3))).map fun a =>
      (some a, goTrim (prog.take idx))

/-- `parseProgram`: trim, BEGIN phase, END phase, then the non-empty
remainder (if any) as the single middle rule. -/
def parseProgram (progText : List Char) : Except ParseError Program :=
  match extractBegin (goTrim progText) with
  | .error e => .error e
  | .ok (b, prog₁) =>
    match extractEnd prog₁ with
    | .error e => .error e
    | .ok (e, prog₂) =>
      if prog₂ ≠ [] then
        (parseRule prog₂).map fun r => ⟨b, [r], e⟩
      else .ok ⟨b, [], e⟩

/-- `processInput`: parse, then run against a fresh context.  Only the
emitted lines are observable. -/
def runProgram (fs : List Char) (progText : List Char)
    (input : List (List Char)) : Except ParseError (List (List Char)) :=
  (parseProgram progText).map fun p => (runParsed fs p input).1

/-- Two consecutive invocations on the same program text and input, as
the file loop of the command performs them: each invocation re-parses
the program (and so builds fresh variable stores). -/
def processTwice (fs : List Char) (progText : List Char)
    (input : List (List Char)) :
    Except ParseError (List (List Char) × List (List Char)) :=
  match parseProgram progText with
  | .error e => .error e
  | .ok p₁ =>
    let o₁ := (runParsed fs p₁ input).1
    match parseProgram progText with
    | .error e => .error e
    | .ok p₂ => .ok (o₁, (runParsed fs p₂ input).1)

/-! ### Helper notions and lemmas -/

/-- Literal substring occurrence: `pat` occurs somewhere in `l`. -/
def containsSub (pat : List Char) : List Char → Bool
  | [] => pat.isPrefixOf []
  | l@(_ :: t) => pat.isPrefixOf l || containsSub pat t

/-- The regex of a plain literal string, as `compileRegex` builds it. -/
def litSeq (cs : List Char) : Regex :=
  cs.foldr (fun c r => .cat (.lit c) r) .eps

theorem containsSub_iff_infix (pat l : List Char) :
    containsSub pat l = true ↔ pat <:+: l := by
  induction l with
  | nil =>
    simp [containsSub, List.isPrefixOf_iff_prefix, List.infix_nil,
      List.prefix_nil]
  | cons c t ih =>
    simp [containsSub, ih, List.infix_cons_iff]

theorem msp_alt (x y : Regex) (l : List Char) :
    matchesSomePre (.alt x y) l =
      (matchesSomePre x l || matchesSomePre y l) := by
  induction l generalizing x y with
  | nil => rfl
  | cons c cs ih =>
    simp only [matchesSomePre, Regex.deriv, Regex.nullable, ih]
    cases x.nullable <;> cases y.nullable <;>
      cases matchesSomePre (x.deriv c) cs <;>
      cases matchesSomePre (y.deriv c) cs <;> rfl

theorem msp_cat_emp (r : Regex) (l : List Char) :
    matchesSomePre (.cat .emp r) l = false := by
  induction l with
  | nil => rfl
  | cons c cs ih => simpa [matchesSomePre, Regex.deriv, Regex.nullable] using ih

theorem msp_cat_eps (r : Regex) (l : List Char) :
    matchesSomePre (.cat .eps r) l = matchesSomePre r l := by
  induction l generalizing r with
  | nil => simp [matchesSomePre, Regex.nullable]
  | cons c cs ih =>
    simp [matchesSomePre, Regex.deriv, Regex.nullable, msp_alt, msp_cat_emp]

theorem msp_litSeq (cs : List Char) : ∀ l : List Char,
    matchesSomePre (litSeq cs) l = cs.isPrefixOf l := by
  induction cs with
  | nil =>
    intro l
    cases l <;> simp [litSeq, matchesSomePre, Regex.nullable, List.isPrefixOf]
  | cons c cs ih =>
    intro l
    cases l with
    | nil => simp [litSeq, matchesSomePre, Regex.nullable, List.isPrefixOf]
    | cons d t =>
      have hstep : matchesSomePre (litSeq (c :: cs)) (d :: t) =
          matchesSomePre ((litSeq (c :: cs)).deriv d) t := by
        simp [matchesSomePre, litSeq, Regex.nullable]
      by_cases hd : d = c
      · subst hd
        have hcls : clsMatches [(d, d)] false d = true := by
          simp [clsMatches]
        have : (litSeq (d :: cs)).deriv d = .cat .eps (litSeq cs) := by
          simp [litSeq, Regex.deriv, Regex.nullable, Regex.lit, hcls]
        rw [hstep, this, msp_cat_eps, ih]
        simp [List.isPrefixOf]
      · have hcls : clsMatches [(c, c)] false d = false := by
          simp only [clsMatches, List.any_cons, List.any_nil]
          have : ¬(c ≤ d ∧ d ≤ c) := fun h => hd (le_antisymm h.2 h.1)
          simp [this]
        have : (litSeq (c :: cs)).deriv d = .cat .emp (litSeq cs) := by
          simp [litSeq, Regex.deriv, Regex.nullable, Regex.lit, hcls]
        rw [hstep, this, msp_cat_emp]
        have : (c == d) = false := by
          simp [beq_iff_eq]; exact fun h => hd h.symm
        simp [List.isPrefixOf, this]

theorem matchString_litSeq (cs : List Char) : ∀ l : List Char,
    matchString (litSeq cs) l = containsSub cs l := by
  intro l
  induction l with
  | nil => simp [matchString, containsSub, msp_litSeq]
  | cons c t ih => simp [matchString, containsSub, msp_litSeq, ih]

/-- The parser's default action (`print` of the whole line). -/
def defaultAction : Action := ⟨[.print []], []⟩

theorem execAction_print_nil (vs : VarMap) (ctx : Context) :
    execAction ⟨[.print []], vs⟩ ctx = (⟨[.print []], vs⟩, [ctx.Line]) := rfl

/-- The line loop over a single rule whose action is a bare `print` and
whose pattern only reads the current line: the emitted lines are the
matching input lines, in order. -/
theorem processLines_print_rule (p : Pattern) (f : List Char → Bool)
    (hp : ∀ ctx : Context, p.MatchCtx ctx = f ctx.Line) (vs : VarMap) :
    ∀ (input : List (List Char)) (ctx : Context),
      (processLines ctx [⟨p, ⟨[.print []], vs⟩⟩] input).2.2 =
        input.filter f := by
  intro input
  induction input with
  | nil => intro ctx; rfl
  | cons line rest ih =>
    intro ctx
    simp only [processLines, runRules, execAction_print_nil]
    rw [hp]
    by_cases h : f line
    · simp [h, ih, List.filter_cons]
    · simp [Bool.not_eq_true] at h
      simp [h, ih, List.filter_cons]

/-- The line loop over a single `NR==k` rule with a bare `print` action:
starting from record number `ctx.NR`, exactly the `(k - ctx.NR)`-th line
of the remaining input is emitted, if it exists. -/
theorem processLines_lineNum (k : Int) (vs : VarMap) :
    ∀ (input : List (List Char)) (ctx : Context),
      (processLines ctx [⟨.lineNum k, ⟨[.print []], vs⟩⟩] input).2.2 =
        if ctx.NR < k ∧ k ≤ ctx.NR + input.length then
          [(input[(k - ctx.NR - 1).toNat]?).getD []]
        else [] := by
  intro input
  induction input with
  | nil =>
    intro ctx
    have : ¬(ctx.NR < k ∧ k ≤ ctx.NR + (([] : List (List Char)).length : Int)) := by
      simp
    simp [processLines, this]
  | cons line rest ih =>
    intro ctx
    simp only [processLines, runRules, execAction_print_nil]
    by_cases h : ctx.NR + 1 = k
    · have hm : (Pattern.lineNum k).MatchCtx
          { ctx with NR := ctx.NR + 1, Line := line,
                     Fields := splitFields line ctx.FS,
                     NF := ((splitFields line ctx.FS).length : Int) } = true := by
        simp [Pattern.MatchCtx, h]
      have hrest : ¬(ctx.NR + 1 < k ∧
          k ≤ ctx.NR + 1 + (rest.length : Int)) := by omega
      have hidx : (k - ctx.NR - 1).toNat = 0 := by omega
      have h2 : ctx.NR < k := by omega
      have h3 : k ≤ ctx.NR + ((rest.length : Int) + 1) := by omega
      simp [hm, ih, hrest, hidx, h2, h3]
    · have hm : (Pattern.lineNum k).MatchCtx
          { ctx with NR := ctx.NR + 1, Line := line,
                     Fields := splitFields line ctx.FS,
                     NF := ((splitFields line ctx.FS).length : Int) } = false := by
        simp [Pattern.MatchCtx]; omega
      by_cases hc : ctx.NR + 1 < k ∧ k ≤ ctx.NR + 1 + (rest.length : Int)
      · have h2 : ctx.NR < k := by omega
        have h3 : k ≤ ctx.NR + ((rest.length : Int) + 1) := by omega
        have hidx : (k - ctx.NR - 1).toNat = (k - ctx.NR - 2).toNat + 1 := by
          omega
        simp [hm, ih, hc, h2, h3, hidx]
        have hidx2 : (k - (ctx.NR + 1)).toNat - 1 = (k - ctx.NR - 2).toNat := by
          omega
        rw [hidx2]
      · have hcond : ¬(ctx.NR < k ∧
            k ≤ ctx.NR + ((rest.length : Int) + 1)) := by omega
        simp [hm, ih, hc, hcond]

theorem goFields_foldr_inv (l : List Char) :
    (∀ c ∈ (l.foldr goFieldsStep ([], [])).1, isGoSpace c = false) ∧
    (∀ t ∈ (l.foldr goFieldsStep ([], [])).2,
      t ≠ [] ∧ ∀ c ∈ t, isGoSpace c = false) := by
  induction l with
  | nil => simp
  | cons c rest ih =>
    simp only [List.foldr_cons]
    rcases ih with ⟨h1, h2⟩
    by_cases hs : isGoSpace c = true
    · refine ⟨by simp [goFieldsStep, hs], ?_⟩
      by_cases he : (rest.foldr goFieldsStep ([], [])).1 = []
      · simpa [goFieldsStep, hs, he] using h2
      · simp only [goFieldsStep, hs, if_true, he, if_false]
        intro t ht
        rcases List.mem_cons.mp ht with rfl | ht
        · exact ⟨he, h1⟩
        · exact h2 t ht
    · rw [Bool.not_eq_true] at hs
      refine ⟨?_, by simpa [goFieldsStep, hs] using h2⟩
      intro d hd
      simp only [goFieldsStep, hs] at hd
      simp only [Bool.false_eq_true, if_false] at hd
      rcases List.mem_cons.mp hd with rfl | hd
      · exact hs
      · exact h1 d hd

/-- Every token produced by `goFields` is a non-empty run of
non-whitespace characters. -/
theorem goFields_tokens (l t : List Char) (ht : t ∈ goFields l) :
    t ≠ [] ∧ ∀ c ∈ t, isGoSpace c = false := by
  have h := goFields_foldr_inv l
  simp only [goFields] at ht
  by_cases he : (l.foldr goFieldsStep ([], [])).1 = []
  · rw [if_pos he] at ht
    exact h.2 t ht
  · rw [if_neg he] at ht
    rcases List.mem_cons.mp ht with rfl | ht
    · exact ⟨he, h.1⟩
    · exact h.2 t ht

/-! ### Claims -/

/-- C2 counterexample: structural parsing of the empty program text —
no BEGIN, no END, empty remainder — succeeds with an entirely empty
program, contradicting the claim that an empty remainder without
BEGIN/END is an error. -/
theorem c2_empty_program_accepted :
    parseProgram [] = .ok ⟨none, [], none⟩ := by decide

/-- C2 (amended): when the BEGIN and END phases succeed and leave an
empty remainder, parsing always succeeds — whether or not a BEGIN or
END section was found — and yields a program with no middle rule. -/
theorem c2_empty_remainder_no_rule (text : List Char) (b e : Option Action)
    (rest₁ : List Char) (h₁ : extractBegin (goTrim text) = .ok (b, rest₁))
    (h₂ : extractEnd rest₁ = .ok (e, [])) :
    parseProgram text = .ok ⟨b, [], e⟩ := by
  simp [parseProgram, h₁, h₂]

/-- C2 witness: a BEGIN-only program parses to a program with no middle
rule. -/
theorem c2_witness :
    parseProgram "BEGIN \x7b print \x7d".toList =
      .ok ⟨some ⟨[.print []], []⟩, [], none⟩ :=
  c2_empty_remainder_no_rule _ _ _ [] (by decide) (by decide)

/-- C3: field splitting is keyed off the separator string — a single
space selects whitespace-run splitting (`"a   b  c"` gives
`["a","b","c"]`; every token is a non-empty run of non-whitespace
characters), any other separator the literal split preserving empty
tokens (`"a,,b"` with `","` gives `["a","","b"]`). -/
theorem c3_field_splitting :
    (splitFields "a   b  c".toList [' '] =
      ["a".toList, "b".toList, "c".toList]) ∧
    (splitFields "a,,b".toList [','] = ["a".toList, [], "b".toList]) ∧
    (∀ line : List Char, splitFields line [' '] = goFields line) ∧
    (∀ line sep : List Char, sep ≠ [' '] →
      splitFields line sep = goSplit line sep) ∧
    (∀ line t : List Char, t ∈ splitFields line [' '] →
      t ≠ [] ∧ ∀ c ∈ t, isGoSpace c = false) := by
  refine ⟨by decide, by decide, fun line => by simp [splitFields],
    fun line sep h => by simp [splitFields, h], fun line t ht => ?_⟩
  exact goFields_tokens line t (by simpa [splitFields] using ht)

/-- C3 witness: the dichotomy and the token invariant at concrete
inputs. -/
theorem c3_witness :
    splitFields "a,,b".toList [','] = goSplit "a,,b".toList [','] ∧
    ("ab".toList ≠ [] ∧ ∀ c ∈ "ab".toList, isGoSpace c = false) :=
  ⟨c3_field_splitting.2.2.2.1 "a,,b".toList [','] (by decide),
   c3_field_splitting.2.2.2.2 "ab  cd".toList "ab".toList (by decide)⟩

/-- C5: expression evaluation is total and defaults to zero — a
division whose right operand evaluates to `0` evaluates to `0`, a field
expression that is out of range (including index `0` and negative
indices) evaluates to `0`, and a field whose text does not parse as a
number evaluates to `0`. -/
theorem c5_total_eval_defaults_zero :
    (∀ (ctx : Context) (vars : VarMap) (l r : Expression),
      evalExpr ctx vars r = 0 →
      evalExpr ctx vars (.binary ['/'] l r) = 0) ∧
    (∀ (ctx : Context) (vars : VarMap) (n : Int),
      n ≤ 0 ∨ (ctx.Fields.length : Int) < n →
      evalExpr ctx vars (.field n) = 0) ∧
    (∀ (ctx : Context) (vars : VarMap) (n : Int),
      goParseFloat ((ctx.Fields[(n - 1).toNat]?).getD []) = none →
      evalExpr ctx vars (.field n) = 0) := by
  refine ⟨fun ctx vars l r h => ?_, fun ctx vars n h => ?_,
    fun ctx vars n h => ?_⟩
  · simp [evalExpr, h]
  · simp only [evalExpr]
    split_ifs with h₁ h₂
    · rfl
    · exfalso; omega
    · rfl
  · simp only [evalExpr]
    split_ifs with h₁ h₂
    · rfl
    · rw [h]; rfl
    · rfl

/-- C5 witness: division by a zero-valued field, an out-of-range field,
and a non-numeric field all evaluate to `0` on concrete contexts. -/
theorem c5_witness :
    evalExpr ⟨1, 2, ["5".toList, "0".toList], "5 0".toList, [' ']⟩ []
      (.binary ['/'] (.field 1) (.field 2)) = 0 ∧
    evalExpr ⟨1, 2, ["5".toList, "0".toList], "5 0".toList, [' ']⟩ []
      (.field 5) = 0 ∧
    evalExpr ⟨1, 1, ["abc".toList], "abc".toList, [' ']⟩ [] (.field 1) = 0 :=
  ⟨c5_total_eval_defaults_zero.1 _ _ _ _ (by decide),
   c5_total_eval_defaults_zero.2.1 _ _ 5 (by decide),
   c5_total_eval_defaults_zero.2.2 _ _ 1 (by decide)⟩

/-- C6: parse-time failure is atomic — whenever `parseProgram` fails,
the whole run returns that error and produces no output lines; in
particular an action body with an unterminated brace is such a failure. -/
theorem c6_parse_failure_atomic :
    (∀ (text fs : List Char) (input : List (List Char)) (e : ParseError),
      parseProgram text = .error e → runProgram fs text input = .error e) ∧
    (parseProgram "\x7b print".toList = .error .actionBraces) := by
  refine ⟨fun text fs input e h => ?_, by decide⟩
  simp [runProgram, h, Except.map]

/-- C6 witness: the unterminated-brace program aborts the run with the
brace error and emits nothing, for a concrete input. -/
theorem c6_witness :
    runProgram [' '] "\x7b print".toList ["a".toList, "b".toList] =
      .error .actionBraces :=
  c6_parse_failure_atomic.1 _ _ _ _ (by decide)

/-- C1: evaluation of the code at the claimed input.  The program
`\x7b sum+=$1 \x7d END \x7b print sum \x7d` on `["3","4 x","abc"]` with the
default separator prints `0`, not `7`: the rule action does accumulate
`sum = 7` in its own variable store, but `Action.Execute` gives every
action (BEGIN, rule, END) a separate `Variables` map, so the END
action's `print sum` reads an unset variable.  The second conjunct
exhibits the rule action's store after the run, holding `sum = 7`. -/
theorem c1_sum_end_prints_zero :
    runProgram [' '] "\x7b sum+=$1 \x7d END \x7b print sum \x7d".toList
      ["3".toList, "4 x".toList, "abc".toList] = .ok [['0']] ∧
    ((runParsed [' ']
        ⟨none,
         [⟨.always, ⟨[.assign "sum".toList
            (.binary ['+'] (.var "sum".toList) (.field 1))], []⟩⟩],
         some ⟨[.print [⟨0, "sum".toList⟩]], []⟩⟩
        ["3".toList, "4 x".toList, "abc".toList]).2.Rules.map
      (fun r => r.Action.Variables)) = [[("sum".toList, (7 : Rat))]] := by
  exact ⟨by decide, by decide⟩

/-- C4: a `NR==k` pattern with the defaulted `print` action emits
exactly the `k`-th input line when `1 ≤ k ≤ n` and nothing otherwise
(`NR` starts at `0` and is incremented before each pattern evaluation);
the first conjunct ties the abstract rule to the parser on `NR==2`. -/
theorem c4_line_number_pattern :
    (parseProgram "NR==2".toList =
      .ok ⟨none, [⟨.lineNum 2, ⟨[.print []], []⟩⟩], none⟩) ∧
    (∀ (k : Int) (input : List (List Char)),
      (runParsed [' '] ⟨none, [⟨.lineNum k, ⟨[.print []], []⟩⟩], none⟩
          input).1 =
        if 1 ≤ k ∧ k ≤ input.length then [(input[(k - 1).toNat]?).getD []]
        else []) := by
  refine ⟨by decide, fun k input => ?_⟩
  have h := processLines_lineNum k [] input ⟨0, 0, [], [], [' ']⟩
  simp only [runParsed] at *
  simp only [List.nil_append, List.append_nil] at *
  rw [h]
  have hiff : ((0 : Int) < k ∧ k ≤ 0 + (input.length : Int)) ↔
      (1 ≤ k ∧ k ≤ (input.length : Int)) := by omega
  rw [if_congr hiff rfl rfl]
  have hidx : (k - 0 - 1).toNat = (k - 1).toNat := by omega
  rw [hidx]

/-- C7: a rule starting with `/` compiles the text up to the next `/`
as a regex (failing when the closing `/` is missing); the compiled
pattern matches by unanchored substring search, so `/abc/` with the
defaulted `print` action emits exactly the lines with `abc` as a
substring. -/
theorem c7_regex_rule :
    (∀ l : List Char, ['/'].isPrefixOf (goTrim l) →
      goIndex ((goTrim l).drop 1) ['/'] = none →
      parseRule l = .error .missingSlash) ∧
    (parseRule "/abc/".toList =
      .ok ⟨.regex (litSeq "abc".toList), ⟨[.print []], []⟩⟩) ∧
    (∀ input : List (List Char),
      (runParsed [' ']
          ⟨none, [⟨.regex (litSeq "abc".toList), ⟨[.print []], []⟩⟩], none⟩
          input).1 =
        input.filter (fun line => containsSub "abc".toList line)) ∧
    (∀ pat line : List Char, containsSub pat line = true ↔ pat <:+: line) := by
  refine ⟨fun l h₁ h₂ => ?_, by decide, fun input => ?_,
    containsSub_iff_infix⟩
  · have h₂' : goIndex ((goTrim l).tail) ['/'] = none := by
      rw [← List.drop_one]; exact h₂
    simp [parseRule, h₁, h₂']
  · have h := processLines_print_rule (.regex (litSeq "abc".toList))
        (fun line => matchString (litSeq "abc".toList) line)
        (fun _ => rfl) [] input ⟨0, 0, [], [], [' ']⟩
    have hfun : (fun line => matchString (litSeq "abc".toList) line) =
        (fun line => containsSub "abc".toList line) :=
      funext (matchString_litSeq "abc".toList)
    simp only [runParsed, List.nil_append, List.append_nil]
    rw [h, hfun]

/-- C7 witness: a rule with an unclosed `/` fails with the
missing-slash error. -/
theorem c7_witness : parseRule "/abc".toList = .error .missingSlash :=
  c7_regex_rule.1 "/abc".toList (by decide) (by decide)

/-- C8: the program `\x7b print \x7d` (always-match pattern,
argument-less `print`) reproduces any input line sequence verbatim. -/
theorem c8_print_identity (input : List (List Char)) :
    runProgram [' '] "\x7b print \x7d".toList input = .ok input := by
  have hp : parseProgram "\x7b print \x7d".toList =
      .ok ⟨none, [⟨.always, ⟨[.print []], []⟩⟩], none⟩ := by decide
  have h := processLines_print_rule .always (fun _ => true)
      (fun _ => rfl) [] input ⟨0, 0, [], [], [' ']⟩
  simp only [runProgram, hp, Except.map]
  simp only [runParsed, List.nil_append, List.append_nil]
  rw [h, List.filter_true]

/-- C9: two consecutive invocations on the same program text and input,
each parsing afresh and building a fresh context, produce identical
output sequences. -/
theorem c9_rerun_deterministic (fs text : List Char)
    (input : List (List Char)) (o₁ o₂ : List (List Char))
    (h : processTwice fs text input = .ok (o₁, o₂)) : o₁ = o₂ := by
  unfold processTwice at h
  cases hp : parseProgram text with
  | error e => rw [hp] at h; simp at h
  | ok p =>
    rw [hp] at h
    simp only [Except.ok.injEq, Prod.mk.injEq] at h
    rw [← h.1, ← h.2]

/-- C9 witness: both runs of `\x7b print \x7d` on `["x"]` emit the same
output. -/
theorem c9_witness : (["x".toList] : List (List Char)) = ["x".toList] :=
  c9_rerun_deterministic [' '] "\x7b print \x7d".toList ["x".toList] _ _
    (by decide)

/-- C10: a `print` with a non-empty field list joins the rendered
references with single spaces; index `0` renders the whole line, an
out-of-range index renders as the empty string, and a variable whose
value is `0` (in particular an unset variable) renders as `"0"`. -/
theorem c10_print_field_list :
    (∀ (ctx : Context) (vars : VarMap) (fs : List FieldRef), fs ≠ [] →
      execStatement ctx vars (.print fs) =
        (vars, [List.intercalate [' '] (fs.map (getValue ctx vars))])) ∧
    (∀ (ctx : Context) (vars : VarMap), getValue ctx vars ⟨0, []⟩ = ctx.Line) ∧
    (∀ (ctx : Context) (vars : VarMap) (n : Int),
      (ctx.Fields.length : Int) < n → getValue ctx vars ⟨n, []⟩ = []) ∧
    (∀ (ctx : Context) (vars : VarMap) (v : List Char), v ≠ [] →
      lookupVar vars v = 0 → getValue ctx vars ⟨0, v⟩ = ['0']) := by
  have hfmt : formatValue 0 = ['0'] := by decide
  refine ⟨fun ctx vars fs h => by simp [execStatement, h],
    fun ctx vars => by simp [getValue],
    fun ctx vars n h => ?_, fun ctx vars v h₁ h₂ => ?_⟩
  · simp only [getValue]
    split_ifs with g₁ g₂ g₃
    · exact absurd rfl g₁
    · exfalso; omega
    · exfalso; omega
    · rfl
  · simp [getValue, h₁, h₂, hfmt]

/-- C10 witness: `print $1, $3, x` on the two-field line `a b` with an
empty store renders as `a`, empty, `0` joined by spaces. -/
theorem c10_witness :
    execStatement ⟨1, 2, ["a".toList, "b".toList], "a b".toList, [' ']⟩ []
      (.print [⟨1, []⟩, ⟨3, []⟩, ⟨0, "x".toList⟩]) =
      ([], [List.intercalate [' ']
        (([⟨1, []⟩, ⟨3, []⟩, ⟨0, "x".toList⟩] : List FieldRef).map
          (getValue ⟨1, 2, ["a".toList, "b".toList], "a b".toList, [' ']⟩
            []))]) ∧
    getValue ⟨1, 2, ["a".toList, "b".toList], "a b".toList, [' ']⟩ []
      ⟨3, []⟩ = [] ∧
    getValue ⟨1, 2, ["a".toList, "b".toList], "a b".toList, [' ']⟩ []
      ⟨0, "x".toList⟩ = ['0'] :=
  ⟨c10_print_field_list.1 _ _ _ (by decide),
   c10_print_field_list.2.2.1 _ _ 3 (by decide),
   c10_print_field_list.2.2.2 _ _ "x".toList (by decide) (by decide)⟩

end Awk
